import Mathlib

/-!
# Retrieval engine of `prompt_engineering_02`

A shallow embedding of the Go sources

* `chaining-augmentation/main.go`      (namespace `ChainingAugmentation`)
* `chaining-augmentation-05/main.go`   (namespace `ChainingAugmentation05`)
* `chaining-augmentation-06/main.go`   (namespace `ChainingAugmentation06`)

Conventions.

* A Go `string` is a Lean `String` (a sequence of runes).
* A Go `int` is an `Int` kept inside the 64-bit two's-complement range by `wrap64`.
* A `float64` is an element of an ordered field `α` with a square-root operation handed
  in as a parameter; the theorems instantiate `α := ℝ` and `sqrt := Real.sqrt`.
* A run-time panic and a loop that is still running when the fuel is used up are explicit
  outcomes (`Run.panicked`, `Run.timeout`).
-/

set_option autoImplicit false

/-! ## Outcomes of Go code -/

/-- Errors created by the program itself (`errors.New`) or coming back from a remote call. -/
inductive GoError where
  /-- The value `errors.New("vectors should not be null (all zeros)")`. -/
  | nullVectors
  /-- An error returned by a remote service. -/
  | upstream (msg : String)
  /-- The value `fmt.Errorf("ERROR: %w", err)`. -/
  | errorf (err : GoError)
  deriving DecidableEq

/-- Run-time panics that the modelled code can raise. -/
inductive GoPanic where
  /-- Index expression `a[k]` with `k` outside `0 ≤ k < len(a)`. -/
  | indexOutOfRange
  /-- Slice expression `a[lo:hi]` violating `0 ≤ lo ≤ hi ≤ len(a)`. -/
  | sliceBoundsOutOfRange
  deriving DecidableEq

/-- Outcome of running a piece of Go code with a bounded number of loop iterations. -/
inductive Run (β : Type) where
  /-- The code returned normally with this value. -/
  | value (v : β)
  /-- The code raised a run-time panic. -/
  | panicked (p : GoPanic)
  /-- The loop was still running when the iteration budget was used up. -/
  | timeout
  deriving DecidableEq

/-! ## Cosine similarity and search (`chaining-augmentation-05`, `-06`: identical code) -/

namespace ChainingAugmentation05

/-- Accumulators `sumA`, `s1`, `s2` of `cosineSimilarity`. -/
structure CosAcc (α : Type) where
  sumA : α
  s1 : α
  s2 : α

/-- One iteration of the `for k := 0; k < count; k++` loop of `cosineSimilarity`.
`none` stands for an index-out-of-range panic of `a[k]` or `b[k]`. -/
def cosineStep {α : Type} [Field α] (a b : List α) (acc : CosAcc α) (k : Nat) :
    Option (CosAcc α) :=
  if k ≥ a.length then
    (b[k]?).map fun bk => { acc with s2 := acc.s2 + bk ^ 2 }
  else if k ≥ b.length then
    (a[k]?).map fun ak => { acc with s1 := acc.s1 + ak ^ 2 }
  else
    (a[k]?).bind fun ak => (b[k]?).map fun bk =>
      { sumA := acc.sumA + ak * bk, s1 := acc.s1 + ak ^ 2, s2 := acc.s2 + bk ^ 2 }

/-- The loop of `cosineSimilarity`, run for `k = 0, …, count - 1`. -/
def cosineLoop {α : Type} [Field α] (a b : List α) (count : Nat) : Option (CosAcc α) :=
  (List.range count).foldlM (cosineStep a b) { sumA := 0, s1 := 0, s2 := 0 }

/-- Embedding of `cosineSimilarity(a, b []float64) (cosine float64, err error)`. -/
def cosineSimilarity {α : Type} [LinearOrderedField α] (sqrt : α → α) (a b : List α) :
    Run (Except GoError α) :=
  let length_a := a.length
  let length_b := b.length
  let count := if length_a > length_b then length_a else length_b
  match cosineLoop a b count with
  | none => .panicked .indexOutOfRange
  | some acc =>
    if acc.s1 = 0 ∨ acc.s2 = 0 then
      .value (.error .nullVectors)
    else
      .value (.ok (acc.sumA / (sqrt acc.s1 * sqrt acc.s2)))

/-- Sum of the squares of the first `n` components (components beyond the end count as 0). -/
def normSq {α : Type} [Field α] (a : List α) (n : Nat) : α :=
  Finset.sum (Finset.range n) fun i => ((a[i]?).getD 0) ^ 2

/-- Sum of the products of the first `n` components (components beyond the end count as 0). -/
def dotUpTo {α : Type} [Field α] (a b : List α) (n : Nat) : α :=
  Finset.sum (Finset.range n) fun i => (a[i]?).getD 0 * (b[i]?).getD 0

end ChainingAugmentation05

/-! ## Go integers, strings and slices -/

/-- Go `int` arithmetic on a 64-bit platform: the exact result of `+` or `-` reduced into the
two's-complement range `[-2^63, 2^63)`. -/
def wrap64 (x : Int) : Int :=
  (x + 9223372036854775808) % 18446744073709551616 - 9223372036854775808

/-- Go slice expression `s[lo:hi]` on a slice whose capacity equals its length;
`none` is the slice-bounds panic. -/
def sliceExpr {β : Type} (s : List β) (lo hi : Int) : Option (List β) :=
  if 0 ≤ lo ∧ lo ≤ hi ∧ hi ≤ (s.length : Int) then
    some ((s.drop lo.toNat).take (hi.toNat - lo.toNat))
  else none

namespace Unicode

/-- Go `unicode.IsSpace`: `\t \n \v \f \r`, space, U+0085, U+00A0 and the remaining code
points with the `White_Space` property. -/
def isSpace (r : Char) : Bool :=
  let n := r.toNat
  (9 ≤ n && n ≤ 13) || n == 32 || n == 133 || n == 160 || n == 5760 ||
    (8192 ≤ n && n ≤ 8202) || n == 8232 || n == 8233 || n == 8239 || n == 8287 || n == 12288

end Unicode

namespace Strings

/-- Scanner behind `strings.Fields`: `cur` is the field read so far. -/
def fieldsScan : List Char → List Char → List (List Char)
  | cur, [] => if cur = [] then [] else [cur]
  | cur, c :: cs =>
    if Unicode.isSpace c then
      if cur = [] then fieldsScan [] cs else cur :: fieldsScan [] cs
    else fieldsScan (cur ++ [c]) cs

/-- Go `strings.Fields`: the maximal runs of non-space runes, in order. -/
def fields (s : String) : List String :=
  (fieldsScan [] s.data).map String.mk

/-- Scanner behind `strings.Split` for a separator of one rune. -/
def splitScan (sep : Char) : List Char → List Char → List (List Char)
  | cur, [] => [cur]
  | cur, c :: cs =>
    if c = sep then cur :: splitScan sep [] cs else splitScan sep (cur ++ [c]) cs

/-- Go `strings.Split(s, sep)` for a separator of one rune (the program only splits on
`" "`): the pieces between consecutive separators, empty pieces included. -/
def split (s : String) (sep : Char) : List String :=
  (splitScan sep [] s.data).map String.mk

/-- Go `strings.Join`. -/
def join : List String → String → String
  | [], _ => ""
  | [e], _ => e
  | e :: e2 :: es, sep => e ++ sep ++ join (e2 :: es) sep

/-- A word: a non-empty string without white space. -/
def IsWord (t : String) : Prop :=
  t.data ≠ [] ∧ ∀ c ∈ t.data, Unicode.isSpace c = false

end Strings

/-! ## The chunker of `chaining-augmentation/main.go` -/

namespace ChainingAugmentation

/-- The `for i := 0; i < len(tokens); i += splitSize - overlapSize` loop of
`characterTextSplitter`, with `end := i + splitSize`. The first argument bounds the number
of iterations. -/
def splitLoop (tokens : List String) (splitSize overlapSize : Int) :
    Nat → Int → List String → Run (List String)
  | 0, i, chunks => if i < (tokens.length : Int) then .timeout else .value chunks
  | fuel + 1, i, chunks =>
    if i < (tokens.length : Int) then
      let end0 := wrap64 (i + splitSize)
      let end1 := if end0 > (tokens.length : Int) then (tokens.length : Int) else end0
      match sliceExpr tokens i end1 with
      | none => .panicked .sliceBoundsOutOfRange
      | some window =>
        splitLoop tokens splitSize overlapSize fuel
          (wrap64 (i + wrap64 (splitSize - overlapSize))) (chunks ++ [Strings.join window " "])
    else .value chunks

/-- Embedding of `characterTextSplitter(text string, splitSize int, overlapSize int) []string`
of `chaining-augmentation/main.go` (tokens from `strings.Fields`). -/
def characterTextSplitter (fuel : Nat) (text : String) (splitSize overlapSize : Int) :
    Run (List String) :=
  splitLoop (Strings.fields text) splitSize overlapSize fuel 0 []

/-- Tokens contributed by the chunks after the first: each chunk's tokens without its first
`overlap` tokens. -/
def laterTokens (overlap : Nat) : List String → List String
  | [] => []
  | c :: cs => (Strings.fields c).drop overlap ++ laterTokens overlap cs

/-- Token sequence rebuilt from a chunk sequence: all tokens of the first chunk, then the
tokens of every later chunk after dropping its first `overlap` tokens. -/
def reassemble (overlap : Nat) : List String → List String
  | [] => []
  | first :: later => Strings.fields first ++ laterTokens overlap later

end ChainingAugmentation

/-! ## The chunker, ingestion and search of `chaining-augmentation-05` and `-06` -/

namespace ChainingAugmentation05

/-- The loop of `characterTextSplitter` in `chaining-augmentation-05` and `-06`, with
`end := i + splitSize - overlapSize`. The first argument bounds the number of iterations. -/
def splitLoop (tokens : List String) (splitSize overlapSize : Int) :
    Nat → Int → List String → Run (List String)
  | 0, i, chunks => if i < (tokens.length : Int) then .timeout else .value chunks
  | fuel + 1, i, chunks =>
    if i < (tokens.length : Int) then
      let end0 := wrap64 (wrap64 (i + splitSize) - overlapSize)
      let end1 := if end0 > (tokens.length : Int) then (tokens.length : Int) else end0
      match sliceExpr tokens i end1 with
      | none => .panicked .sliceBoundsOutOfRange
      | some window =>
        splitLoop tokens splitSize overlapSize fuel
          (wrap64 (i + wrap64 (splitSize - overlapSize))) (chunks ++ [Strings.join window " "])
    else .value chunks

/-- Embedding of `characterTextSplitter` of `chaining-augmentation-05/main.go` and
`chaining-augmentation-06/main.go` (tokens from `strings.Split(text, " ")`). -/
def characterTextSplitter (fuel : Nat) (text : String) (splitSize overlapSize : Int) :
    Run (List String) :=
  splitLoop (Strings.split text ' ') splitSize overlapSize fuel 0 []

/-- Embedding of `type VectorizedChunk struct`. -/
structure VectorizedChunk (α : Type) where
  Id : Int
  Chunk : String
  Vector : List α
  Metadata : String

/-- Embedding of `type VectorizedChunks []VectorizedChunk`. -/
abbrev VectorizedChunks (α : Type) := List (VectorizedChunk α)

/-- The loop `for _, c := range chunks` of `search`, with the locals `outChunk` and
`maxSimilarity`. -/
def searchLoop {α : Type} [LinearOrderedField α] (sqrt : α → α) (embedding : VectorizedChunk α) :
    List (VectorizedChunk α) → String → α → Run (Except GoError String)
  | [], outChunk, _ => .value (.ok outChunk)
  | c :: cs, outChunk, maxSimilarity =>
    match cosineSimilarity sqrt c.Vector embedding.Vector with
    | .value (.ok distance) =>
      if distance > maxSimilarity then searchLoop sqrt embedding cs c.Chunk distance
      else searchLoop sqrt embedding cs outChunk maxSimilarity
    | .value (.error err) => .value (.error err)
    | .panicked p => .panicked p
    | .timeout => .timeout

/-- Embedding of `search(chunks VectorizedChunks, embedding VectorizedChunk) (string, error)`. -/
def search {α : Type} [LinearOrderedField α] (sqrt : α → α) (chunks : VectorizedChunks α)
    (embedding : VectorizedChunk α) : Run (Except GoError String) :=
  searchLoop sqrt embedding chunks "" 0

/-- The ingestion loop of `main`: `for i, chunk := range chunks`, with `embed("", chunk)`
handed in as `embed`; an embedding failure ends the run (`log.Fatal`). -/
def ingestLoop {α : Type} (embed : String → Except GoError (VectorizedChunk α)) :
    List String → Nat → VectorizedChunks α → Run (Except GoError (VectorizedChunks α))
  | [], _, vectorizedChunks => .value (.ok vectorizedChunks)
  | chunk :: rest, i, vectorizedChunks =>
    match embed chunk with
    | .error err => .value (.error err)
    | .ok vectorizedChunk =>
      let appended := vectorizedChunks ++ [vectorizedChunk]
      match appended[i]? with
      | none => .panicked .indexOutOfRange
      | some c =>
        ingestLoop embed rest (i + 1) (appended.set i { c with Id := (i : Int), Metadata := chunk })

/-- Ingestion as done by `main`, starting from `vectorizedChunks := VectorizedChunks{}`. -/
def ingest {α : Type} (embed : String → Except GoError (VectorizedChunk α))
    (chunks : List String) : Run (Except GoError (VectorizedChunks α)) :=
  ingestLoop embed chunks 0 []

/-- The value `sumA / (math.Sqrt(s1) * math.Sqrt(s2))` that `cosineSimilarity` returns for
vectors `a` and `b` when neither norm is zero. -/
def cosineValue {α : Type} [Field α] (sqrt : α → α) (a b : List α) : α :=
  dotUpTo a b (max a.length b.length) /
    (sqrt (normSq a (max a.length b.length)) * sqrt (normSq b (max a.length b.length)))

/-- The three-chunk corpus with vectors `[1,0]`, `[0,1]`, `[0.9,0.1]`. -/
def exampleCorpus : VectorizedChunks ℝ :=
  [⟨0, "first", [1, 0], "first"⟩, ⟨1, "second", [0, 1], "second"⟩,
    ⟨2, "third", [0.9, 0.1], "third"⟩]

/-- A query whose vector is `[1,0]`. -/
def exampleQuery : VectorizedChunk ℝ := ⟨0, "query", [1, 0], ""⟩

/-- A query whose vector is `[0,1]`, the vector of chunk 1 of `exampleCorpus`. -/
def secondQuery : VectorizedChunk ℝ := ⟨0, "query", [0, 1], ""⟩

/-- A two-chunk corpus in which chunk 0 points in the same direction as chunk 1. -/
def parallelCorpus : VectorizedChunks ℝ :=
  [⟨0, "zero", [2, 0], "zero"⟩, ⟨1, "one", [1, 0], "one"⟩]

end ChainingAugmentation05

/-! ## `chaining-augmentation-06`: the functions it shares with `-05`

`cosineSimilarity`, `search` and `characterTextSplitter` of `chaining-augmentation-06/main.go`
are, statement for statement, the functions of `chaining-augmentation-05/main.go`. -/

namespace ChainingAugmentation06

/-- Embedding of `cosineSimilarity` of `chaining-augmentation-06/main.go`. -/
abbrev cosineSimilarity {α : Type} [LinearOrderedField α] (sqrt : α → α) (a b : List α) :
    Run (Except GoError α) :=
  ChainingAugmentation05.cosineSimilarity sqrt a b

/-- Embedding of `search` of `chaining-augmentation-06/main.go`. -/
abbrev search {α : Type} [LinearOrderedField α] (sqrt : α → α)
    (chunks : ChainingAugmentation05.VectorizedChunks α)
    (embedding : ChainingAugmentation05.VectorizedChunk α) : Run (Except GoError String) :=
  ChainingAugmentation05.search sqrt chunks embedding

/-- Embedding of `characterTextSplitter` of `chaining-augmentation-06/main.go`. -/
abbrev characterTextSplitter (fuel : Nat) (text : String) (splitSize overlapSize : Int) :
    Run (List String) :=
  ChainingAugmentation05.characterTextSplitter fuel text splitSize overlapSize

end ChainingAugmentation06

/-! ## The conversation loop of `chaining-augmentation-06` -/

namespace ChainingAugmentation06

/-- Embedding of `qAPromptTemplate(context, question string) string`. -/
def qAPromptTemplate (context question : String) : String :=
  "Context: \"" ++ context ++ "\"\n\nQuestion: \"" ++ question ++ "\"\n"

/-- Roles of the chat client (`client.Roles`); `unset` is the zero value of the type. -/
inductive Role where
  | unset
  | system
  | user
  | assistant
  deriving DecidableEq

/-- Embedding of `client.ChatInputMessage`. -/
structure ChatInputMessage where
  Role : Role
  Content : String
  deriving DecidableEq

/-- The memory holding the backing arrays of the `[]client.ChatInputMessage` slices: the
array at address `p` is the `p`-th list, and its length is its capacity. -/
abbrev Heap := List (List ChatInputMessage)

/-- A Go slice value: the address of its backing array, its length and its capacity. -/
structure Slice where
  array : Nat
  len : Nat
  cap : Nat
  deriving DecidableEq

/-- The elements a slice shows: the first `len` cells of its backing array. -/
def Slice.view (h : Heap) (s : Slice) : List ChatInputMessage :=
  ((h[s.array]?).getD []).take s.len

/-- A slice is well formed in a heap when its backing array exists, has `cap` cells, and
`len ≤ cap`. -/
def Slice.WF (h : Heap) (s : Slice) : Prop :=
  s.array < h.length ∧ s.len ≤ s.cap ∧ ((h[s.array]?).getD []).length = s.cap

/-- Go assignment `s[i] = x`: writes into the backing array; `none` is the index panic. -/
def setIndex (h : Heap) (s : Slice) (i : Nat) (x : ChatInputMessage) : Option Heap :=
  if i < s.len then some (h.set s.array (((h[s.array]?).getD []).set i x)) else none

/-- Go `append(s, x)`: writes in place when the capacity allows it, and otherwise copies the
elements into a fresh backing array whose capacity the runtime picks (`growCap oldCap newLen`,
never below the new length). -/
def append (growCap : Nat → Nat → Nat) (h : Heap) (s : Slice) (x : ChatInputMessage) :
    Heap × Slice :=
  if s.len < s.cap then
    (h.set s.array (((h[s.array]?).getD []).set s.len x), { s with len := s.len + 1 })
  else
    let newCap := max (growCap s.cap (s.len + 1)) (s.len + 1)
    (h ++ [s.view h ++ [x] ++ List.replicate (newCap - (s.len + 1)) ⟨.unset, ""⟩],
      { array := h.length, len := s.len + 1, cap := newCap })

/-- The answer accumulated by `run`: `full_message = full_message + choice.Delta.Content`
for every choice of every streamed response, in arrival order. -/
def fullMessage (stream : List (List String)) : String :=
  stream.foldl (fun acc choices => choices.foldl (fun acc2 content => acc2 ++ content) acc) ""

/-- Embedding of `run(query, queryContext string, messages []client.ChatInputMessage)
(float64, string, error)`. The remote calls are parameters: `chatSSE` maps the messages sent
to the streamed responses (each a list of choice contents), `factuality` maps context and
answer to the list of check scores. The heap after the call is returned as well. -/
def run {σ : Type} (growCap : Nat → Nat → Nat)
    (chatSSE : List ChatInputMessage → Except GoError (List (List String)))
    (factuality : String → String → Except GoError (List σ))
    (h : Heap) (query queryContext : String) (messages : Slice) :
    Heap × Run (Except GoError (σ × String)) :=
  let inputMod : ChatInputMessage := ⟨.user, qAPromptTemplate queryContext query⟩
  let written : Option (Heap × Slice) :=
    if messages.len > 1 then
      (setIndex h messages (messages.len - 1) inputMod).map fun h1 => (h1, messages)
    else
      some (append growCap h messages inputMod)
  match written with
  | none => (h, .panicked .indexOutOfRange)
  | some (h1, messages1) =>
    match chatSSE (messages1.view h1) with
    | .error err => (h1, .value (.error (.errorf err)))
    | .ok stream =>
      let full_message := fullMessage stream
      match factuality queryContext full_message with
      | .error err => (h1, .value (.error (.errorf err)))
      | .ok [] => (h1, .panicked .indexOutOfRange)
      | .ok (score :: _) => (h1, .value (.ok (score, full_message)))

/-- The system instruction that `main` puts first in `messages`. -/
def systemInstruction : ChatInputMessage :=
  ⟨.system, "Read the context provided by the user and answer their question. If the question cannot be answered based on the context alone or the context does not explicitly say the answer to the question, respond 'Sorry I had trouble answering this question, based on the information I found.'"⟩

/-- The heap and the slice `messages` of `main` before the first turn: a one-element
composite literal, so length and capacity are 1. -/
def initialMessages : Heap × Slice :=
  ([[systemInstruction]], { array := 0, len := 1, cap := 1 })

/-- The part of the loop body of `main` from the call of `run` on: `run(input, chunk,
messages)`, `log.Fatalln` on an error, then the two `append`s to `messages`. -/
def answerTurn {σ : Type} (growCap : Nat → Nat → Nat)
    (chatSSE : List ChatInputMessage → Except GoError (List (List String)))
    (factuality : String → String → Except GoError (List σ))
    (h : Heap) (messages : Slice) (input chunk : String) :
    Run (Except GoError (Heap × Slice)) :=
  match run growCap chatSSE factuality h input chunk messages with
  | (_, .panicked p) => .panicked p
  | (_, .timeout) => .timeout
  | (_, .value (.error err)) => .value (.error err)
  | (h1, .value (.ok (_, full_message))) =>
    let (h2, messages2) := append growCap h1 messages ⟨.user, input⟩
    .value (.ok (append growCap h2 messages2 ⟨.assistant, full_message⟩))

/-- A capacity rule for `append`: double the old capacity unless more is needed. -/
def doubleCap (oldCap newLen : Nat) : Nat :=
  if newLen > 2 * oldCap then newLen else 2 * oldCap

/-- A generation service that streams the same two responses for every request. -/
def exampleChat : List ChatInputMessage → Except GoError (List (List String)) :=
  fun _ => .ok [["Go"], [" is", " fun"]]

/-- A factuality service that returns one check with score 1 for every request. -/
def exampleFactuality : String → String → Except GoError (List Nat) :=
  fun _ _ => .ok [1]

end ChainingAugmentation06

/-! # Theorems -/

/-! ## Cosine similarity -/

namespace ChainingAugmentation05

theorem cosineStep_eq {α : Type} [Field α] (a b : List α) (acc : CosAcc α) (k : Nat)
    (hk : k < a.length ∨ k < b.length) :
    cosineStep a b acc k = some
      { sumA := acc.sumA + (a[k]?).getD 0 * (b[k]?).getD 0,
        s1 := acc.s1 + ((a[k]?).getD 0) ^ 2,
        s2 := acc.s2 + ((b[k]?).getD 0) ^ 2 } := by
  unfold cosineStep
  by_cases ha : k < a.length
  · by_cases hb : k < b.length
    · simp [ha, hb, Nat.not_le.mpr ha, Nat.not_le.mpr hb]
    · have hb2 : b.length ≤ k := Nat.le_of_not_lt hb
      simp [ha, hb2, Nat.not_le.mpr ha, List.getElem?_eq_none hb2]
  · have ha2 : a.length ≤ k := Nat.le_of_not_lt ha
    have hb : k < b.length := by
      rcases hk with h | h
      · exact absurd h ha
      · exact h
    simp [ha2, hb, List.getElem?_eq_none ha2]

theorem cosineLoop_range {α : Type} [Field α] (a b : List α) (k : Nat)
    (hk : k ≤ max a.length b.length) :
    (List.range k).foldlM (cosineStep a b) { sumA := 0, s1 := 0, s2 := 0 } = some
      { sumA := Finset.sum (Finset.range k) fun i => (a[i]?).getD 0 * (b[i]?).getD 0,
        s1 := Finset.sum (Finset.range k) fun i => ((a[i]?).getD 0) ^ 2,
        s2 := Finset.sum (Finset.range k) fun i => ((b[i]?).getD 0) ^ 2 } := by
  induction k with
  | zero => simp
  | succ n ih =>
    have hn : n < a.length ∨ n < b.length := by
      rcases Nat.lt_or_ge n a.length with h | h
      · exact Or.inl h
      · right
        rcases Nat.lt_or_ge n b.length with h2 | h2
        · exact h2
        · exfalso
          have : max a.length b.length ≤ n := max_le h h2
          omega
    rw [List.range_succ, List.foldlM_append, ih (by omega)]
    simp [cosineStep_eq a b _ n hn, Finset.sum_range_succ]

theorem cosineSimilarity_eq {α : Type} [LinearOrderedField α] (sqrt : α → α) (a b : List α) :
    cosineSimilarity sqrt a b =
      if normSq a (max a.length b.length) = 0 ∨ normSq b (max a.length b.length) = 0 then
        .value (.error .nullVectors)
      else
        .value (.ok (dotUpTo a b (max a.length b.length) /
          (sqrt (normSq a (max a.length b.length)) * sqrt (normSq b (max a.length b.length))))) := by
  have hcount : (if a.length > b.length then a.length else b.length) = max a.length b.length := by
    by_cases h : a.length > b.length
    · simp [h, max_eq_left (le_of_lt h)]
    · simp [h, max_eq_right (not_lt.mp h)]
  unfold cosineSimilarity cosineLoop
  simp only [hcount]
  rw [cosineLoop_range a b _ le_rfl]
  rfl

theorem normSq_nonneg {α : Type} [LinearOrderedField α] (a : List α) (n : Nat) :
    0 ≤ normSq a n :=
  Finset.sum_nonneg fun _ _ => sq_nonneg _

theorem normSq_eq_zero_iff {α : Type} [LinearOrderedField α] (a : List α) (n : Nat)
    (hn : a.length ≤ n) : normSq a n = 0 ↔ ∀ x ∈ a, x = 0 := by
  unfold normSq
  rw [Finset.sum_eq_zero_iff_of_nonneg (fun _ _ => sq_nonneg _)]
  constructor
  · intro h x hx
    obtain ⟨i, hi, rfl⟩ := List.getElem_of_mem hx
    have := h i (Finset.mem_range.mpr (lt_of_lt_of_le hi hn))
    simpa [List.getElem?_eq_getElem hi] using this
  · intro h i _
    by_cases hi : i < a.length
    · simp [List.getElem?_eq_getElem hi, h _ (List.getElem_mem hi)]
    · simp [List.getElem?_eq_none (not_lt.mp hi)]

theorem dotUpTo_sq_le {α : Type} [LinearOrderedField α] (a b : List α) (n : Nat) :
    dotUpTo a b n ^ 2 ≤ normSq a n * normSq b n :=
  Finset.sum_mul_sq_le_sq_mul_sq _ _ _

theorem cosineSimilarity_ok_of_nonzero (a b : List ℝ) (ha : ∃ x ∈ a, x ≠ 0)
    (hb : ∃ x ∈ b, x ≠ 0) :
    cosineSimilarity Real.sqrt a b = .value (.ok (dotUpTo a b (max a.length b.length) /
      (Real.sqrt (normSq a (max a.length b.length)) *
        Real.sqrt (normSq b (max a.length b.length))))) := by
  rw [cosineSimilarity_eq]
  have h1 : ¬ normSq a (max a.length b.length) = 0 := by
    rw [normSq_eq_zero_iff a _ (le_max_left _ _)]
    push_neg
    exact ha
  have h2 : ¬ normSq b (max a.length b.length) = 0 := by
    rw [normSq_eq_zero_iff b _ (le_max_right _ _)]
    push_neg
    exact hb
  simp [h1, h2]

theorem cosine_value_abs_le_one (a b : List ℝ) (n : Nat) (ha : normSq a n ≠ 0)
    (hb : normSq b n ≠ 0) :
    |dotUpTo a b n / (Real.sqrt (normSq a n) * Real.sqrt (normSq b n))| ≤ 1 := by
  have hA : 0 < normSq a n := lt_of_le_of_ne (normSq_nonneg a n) (Ne.symm ha)
  have hB : 0 < normSq b n := lt_of_le_of_ne (normSq_nonneg b n) (Ne.symm hb)
  have hpos : 0 < Real.sqrt (normSq a n) * Real.sqrt (normSq b n) :=
    mul_pos (Real.sqrt_pos.mpr hA) (Real.sqrt_pos.mpr hB)
  have hD : |dotUpTo a b n| ≤ Real.sqrt (normSq a n) * Real.sqrt (normSq b n) := by
    rw [← Real.sqrt_mul (le_of_lt hA)]
    exact Real.abs_le_sqrt (dotUpTo_sq_le a b n)
  rw [abs_div, abs_of_pos hpos]
  exact (div_le_one hpos).mpr hD

theorem cosineSimilarity_le_one (a b : List ℝ) (s : ℝ)
    (h : cosineSimilarity Real.sqrt a b = .value (.ok s)) : -1 ≤ s ∧ s ≤ 1 := by
  rw [cosineSimilarity_eq] at h
  by_cases hz : normSq a (max a.length b.length) = 0 ∨ normSq b (max a.length b.length) = 0
  · rw [if_pos hz] at h
    injection h with h
    injection h
  rw [if_neg hz] at h
  push_neg at hz
  have hs : dotUpTo a b (max a.length b.length) /
      (Real.sqrt (normSq a (max a.length b.length)) *
        Real.sqrt (normSq b (max a.length b.length))) = s := by
    injection h with h
    injection h
  rw [← hs]
  exact abs_le.mp (cosine_value_abs_le_one a b _ hz.1 hz.2)

theorem cosine_self_value (v : List ℝ) (hv : ∃ x ∈ v, x ≠ 0) :
    cosineSimilarity Real.sqrt v v = .value (.ok 1) := by
  rw [cosineSimilarity_ok_of_nonzero v v hv hv]
  have hne : normSq v (max v.length v.length) ≠ 0 := by
    rw [Ne, normSq_eq_zero_iff v _ (le_max_left _ _)]
    push_neg
    exact hv
  have hdot : dotUpTo v v (max v.length v.length) = normSq v (max v.length v.length) := by
    unfold dotUpTo normSq
    exact Finset.sum_congr rfl fun i _ => (pow_two _).symm
  rw [hdot, Real.mul_self_sqrt (normSq_nonneg v _), div_self hne]

/-- C6: `cosineSimilarity(a, b)` returns an error exactly when `a` or `b` is an all-zero
vector (the empty vector included); for every other pair of vectors, of equal or unequal
length, it returns a value and no error (and never panics on an index). -/
theorem cosineSimilarity_error_iff_all_zero (a b : List ℝ) :
    ((∃ e, cosineSimilarity Real.sqrt a b = .value (.error e)) ↔
        ((∀ x ∈ a, x = 0) ∨ (∀ x ∈ b, x = 0))) ∧
      (¬ ((∀ x ∈ a, x = 0) ∨ (∀ x ∈ b, x = 0)) →
        ∃ s, cosineSimilarity Real.sqrt a b = .value (.ok s)) := by
  have hiff : (normSq a (max a.length b.length) = 0 ∨ normSq b (max a.length b.length) = 0) ↔
      ((∀ x ∈ a, x = 0) ∨ (∀ x ∈ b, x = 0)) := by
    rw [normSq_eq_zero_iff a _ (le_max_left _ _), normSq_eq_zero_iff b _ (le_max_right _ _)]
  rw [cosineSimilarity_eq]
  constructor
  · constructor
    · rintro ⟨e, he⟩
      by_contra hcon
      rw [if_neg (fun h => hcon (hiff.mp h))] at he
      injection he with he
      injection he
    · intro hz
      exact ⟨.nullVectors, by rw [if_pos (hiff.mpr hz)]⟩
  · intro hz
    exact ⟨_, by rw [if_neg (fun h => hz (hiff.mp h))]⟩

/-- C7: for every non-zero vector `v` of any length, `cosineSimilarity(v, v)` succeeds and
equals 1 (over exact reals). -/
theorem cosineSimilarity_self_is_one (v : List ℝ) (hv : ∃ x ∈ v, x ≠ 0) :
    cosineSimilarity Real.sqrt v v = .value (.ok 1) :=
  cosine_self_value v hv

/-- C10: for every pair of non-zero vectors `a`, `b` of equal length, `cosineSimilarity(a, b)`
succeeds with a value `s` satisfying `-1 ≤ s ≤ 1` (over exact reals). -/
theorem cosineSimilarity_range (a b : List ℝ) (_hlen : a.length = b.length)
    (ha : ∃ x ∈ a, x ≠ 0) (hb : ∃ x ∈ b, x ≠ 0) :
    ∃ s, cosineSimilarity Real.sqrt a b = .value (.ok s) ∧ -1 ≤ s ∧ s ≤ 1 :=
  ⟨_, cosineSimilarity_ok_of_nonzero a b ha hb,
    cosineSimilarity_le_one a b _ (cosineSimilarity_ok_of_nonzero a b ha hb)⟩

end ChainingAugmentation05

/-! ## Search -/

namespace ChainingAugmentation05

theorem searchLoop_keeps {α : Type} [LinearOrderedField α] (sqrt : α → α)
    (q : VectorizedChunk α) (cs : List (VectorizedChunk α)) (out : String) (mx : α)
    (s : Nat → α)
    (hs : ∀ i (h : i < cs.length),
      cosineSimilarity sqrt (cs.get ⟨i, h⟩).Vector q.Vector = .value (.ok (s i)))
    (hle : ∀ i, i < cs.length → s i ≤ mx) :
    searchLoop sqrt q cs out mx = .value (.ok out) := by
  induction cs generalizing s with
  | nil => rfl
  | cons c cs ih =>
    have h0 := hs 0 (Nat.succ_pos _)
    have hle0 : ¬ s 0 > mx := not_lt.mpr (hle 0 (Nat.succ_pos _))
    simp only [List.get] at h0
    unfold searchLoop
    simp only [h0, if_neg hle0]
    exact ih (fun i => s (i + 1)) (fun i h => hs (i + 1) (Nat.succ_lt_succ h))
      (fun i h => hle (i + 1) (Nat.succ_lt_succ h))

theorem searchLoop_selects {α : Type} [LinearOrderedField α] (sqrt : α → α)
    (q : VectorizedChunk α) (cs : List (VectorizedChunk α)) (out : String) (mx : α)
    (s : Nat → α)
    (hs : ∀ i (h : i < cs.length),
      cosineSimilarity sqrt (cs.get ⟨i, h⟩).Vector q.Vector = .value (.ok (s i)))
    (i : Nat) (hi : i < cs.length) (hgt : mx < s i)
    (hmax : ∀ j, j < cs.length → s j ≤ s i) (hfirst : ∀ j, j < i → s j < s i) :
    searchLoop sqrt q cs out mx = .value (.ok (cs.get ⟨i, hi⟩).Chunk) := by
  induction cs generalizing s i out mx with
  | nil => exact absurd hi (Nat.not_lt_zero _)
  | cons c cs ih =>
    have h0 := hs 0 (Nat.succ_pos _)
    simp only [List.get] at h0
    have hs1 : ∀ j (h : j < cs.length),
        cosineSimilarity sqrt (cs.get ⟨j, h⟩).Vector q.Vector = .value (.ok (s (j + 1))) :=
      fun j h => hs (j + 1) (Nat.succ_lt_succ h)
    unfold searchLoop
    simp only [h0]
    cases i with
    | zero =>
      simp only [if_pos hgt, List.get]
      exact searchLoop_keeps sqrt q cs c.Chunk (s 0) (fun j => s (j + 1)) hs1
        (fun j h => hmax (j + 1) (Nat.succ_lt_succ h))
    | succ n =>
      have hn : n < cs.length := Nat.lt_of_succ_lt_succ hi
      have hmax1 : ∀ j, j < cs.length → s (j + 1) ≤ s (n + 1) :=
        fun j h => hmax (j + 1) (Nat.succ_lt_succ h)
      have hfirst1 : ∀ j, j < n → s (j + 1) < s (n + 1) :=
        fun j h => hfirst (j + 1) (Nat.succ_lt_succ h)
      by_cases hc : s 0 > mx
      · simp only [if_pos hc, List.get]
        exact ih c.Chunk (s 0) (fun j => s (j + 1)) hs1 n hn (hfirst 0 (Nat.succ_pos _))
          hmax1 hfirst1
      · simp only [if_neg hc, List.get]
        exact ih out mx (fun j => s (j + 1)) hs1 n hn hgt hmax1 hfirst1

/-- C1: for every corpus and query on which no `cosineSimilarity` call fails (the score of
the chunk at index `i` is `s i`), `search` returns, with no error, the text of the
lowest-index chunk whose score equals the maximum score over the corpus, provided that
maximum is strictly greater than 0; if every score is `≤ 0` (or the corpus is empty) it
returns the empty string with no error. Scores are exact reals. -/
theorem search_returns_first_maximum (chunks : VectorizedChunks ℝ) (query : VectorizedChunk ℝ)
    (s : Nat → ℝ)
    (hs : ∀ i (h : i < chunks.length),
      cosineSimilarity Real.sqrt (chunks.get ⟨i, h⟩).Vector query.Vector = .value (.ok (s i))) :
    (∀ i (hi : i < chunks.length), 0 < s i → (∀ j, j < chunks.length → s j ≤ s i) →
        (∀ j, j < i → s j ≠ s i) →
        search Real.sqrt chunks query = .value (.ok (chunks.get ⟨i, hi⟩).Chunk)) ∧
      ((∀ j, j < chunks.length → s j ≤ 0) →
        search Real.sqrt chunks query = .value (.ok "")) := by
  constructor
  · intro i hi hpos hmax hfirst
    exact searchLoop_selects Real.sqrt query chunks "" 0 s hs i hi hpos hmax
      (fun j hj => lt_of_le_of_ne (hmax j (lt_trans hj hi)) (hfirst j hj))
  · intro hle
    exact searchLoop_keeps Real.sqrt query chunks "" 0 s hs hle

theorem exampleCorpus_scores (i : Nat) (h : i < exampleCorpus.length) :
    cosineSimilarity Real.sqrt (exampleCorpus.get ⟨i, h⟩).Vector exampleQuery.Vector =
      .value (.ok (if i = 0 then 1 else if i = 1 then 0 else 0.9 / Real.sqrt 0.82)) := by
  have h3 : i < 3 := h
  interval_cases i
  · show cosineSimilarity Real.sqrt [1, 0] [1, 0] = _
    rw [cosineSimilarity_eq]
    simp [normSq, dotUpTo, Finset.sum_range_succ]
  · show cosineSimilarity Real.sqrt [0, 1] [1, 0] = _
    rw [cosineSimilarity_eq]
    simp [normSq, dotUpTo, Finset.sum_range_succ]
  · show cosineSimilarity Real.sqrt [0.9, 0.1] [1, 0] = _
    rw [cosineSimilarity_eq]
    have e : ((0.9 : ℝ) ^ 2 + 0.1 ^ 2) = 0.82 := by norm_num
    have e0 : ¬ ((0.82 : ℝ) = 0) := by norm_num
    simp [normSq, dotUpTo, Finset.sum_range_succ, e, e0]

theorem example_third_le : (0.9 : ℝ) / Real.sqrt 0.82 ≤ 1 := by
  have h : (0 : ℝ) < Real.sqrt 0.82 := Real.sqrt_pos.mpr (by norm_num)
  rw [div_le_one h]
  exact Real.le_sqrt_of_sq_le (by norm_num)

/-- Witness for C1: on the corpus with vectors `[1,0]`, `[0,1]`, `[0.9,0.1]` and the query
`[1,0]`, `search` returns the text of the first chunk. -/
theorem search_returns_first_maximum_witness :
    search Real.sqrt exampleCorpus exampleQuery = .value (.ok "first") :=
  (search_returns_first_maximum exampleCorpus exampleQuery
    (fun i => if i = 0 then 1 else if i = 1 then 0 else 0.9 / Real.sqrt 0.82)
    exampleCorpus_scores).1 0 (by decide) (by norm_num)
    (fun j hj => by
      have h3 : j < 3 := hj
      interval_cases j
      · simp
      · simp
      · simpa using example_third_le)
    (fun j hj => absurd hj (Nat.not_lt_zero j))

theorem search_exact_match_aux (c0 c1 : VectorizedChunk ℝ) (rest : List (VectorizedChunk ℝ))
    (query : VectorizedChunk ℝ)
    (hnz : ∀ c ∈ c0 :: c1 :: rest, ∃ x ∈ c.Vector, x ≠ 0)
    (hq : query.Vector = c1.Vector) :
    (cosineSimilarity Real.sqrt c0.Vector query.Vector = .value (.ok 1) →
        search Real.sqrt (c0 :: c1 :: rest) query = .value (.ok c0.Chunk)) ∧
      (cosineSimilarity Real.sqrt c0.Vector query.Vector ≠ .value (.ok 1) →
        search Real.sqrt (c0 :: c1 :: rest) query = .value (.ok c1.Chunk)) := by
  have hqnz : ∃ x ∈ query.Vector, x ≠ 0 := by
    rw [hq]
    exact hnz c1 (by simp)
  let s : Nat → ℝ := fun i =>
    ((c0 :: c1 :: rest)[i]?).elim 0 fun c => cosineValue Real.sqrt c.Vector query.Vector
  have hs : ∀ i (h : i < (c0 :: c1 :: rest).length),
      cosineSimilarity Real.sqrt ((c0 :: c1 :: rest).get ⟨i, h⟩).Vector query.Vector =
        .value (.ok (s i)) := by
    intro i h
    have hmem : (c0 :: c1 :: rest).get ⟨i, h⟩ ∈ c0 :: c1 :: rest := List.get_mem _ _ _
    rw [cosineSimilarity_ok_of_nonzero _ _ (hnz _ hmem) hqnz]
    have hget : (c0 :: c1 :: rest)[i]? = some ((c0 :: c1 :: rest).get ⟨i, h⟩) := by
      rw [List.getElem?_eq_getElem h]
      rfl
    simp only [s, hget, Option.elim, cosineValue]
  have hle : ∀ j, j < (c0 :: c1 :: rest).length → s j ≤ 1 :=
    fun j hj => (cosineSimilarity_le_one _ _ _ (hs j hj)).2
  have h1 : s 1 = 1 := by
    have e := hs 1 (by simp)
    have e2 : cosineSimilarity Real.sqrt c1.Vector query.Vector = .value (.ok 1) := by
      rw [hq]
      exact cosine_self_value _ (hnz c1 (by simp))
    simp only [List.get] at e
    rw [e2] at e
    injection e with e
    injection e with e
    exact e.symm
  have h0 := hs 0 (by simp)
  simp only [List.get] at h0
  constructor
  · intro hc0
    have e0 : s 0 = 1 := by
      rw [hc0] at h0
      injection h0 with e
      injection e with e
      exact e.symm
    exact searchLoop_selects Real.sqrt query (c0 :: c1 :: rest) "" 0 s hs 0 (by simp)
      (by rw [e0]; exact one_pos) (fun j hj => by rw [e0]; exact hle j hj)
      (fun j hj => absurd hj (Nat.not_lt_zero j))
  · intro hc0
    have e0 : s 0 < 1 := by
      refine lt_of_le_of_ne (hle 0 (by simp)) ?_
      intro e
      rw [e] at h0
      exact hc0 h0
    exact searchLoop_selects Real.sqrt query (c0 :: c1 :: rest) "" 0 s hs 1 (by simp)
      (by rw [h1]; exact one_pos) (fun j hj => by rw [h1]; exact hle j hj)
      (fun j hj => by
        have : j = 0 := by omega
        rw [this, h1]
        exact e0)

end ChainingAugmentation05

/-! ## Strings and the chunkers -/

namespace ChainingAugmentation

open Strings

theorem wrap64_eq_self (x : Int) (h1 : -9223372036854775808 ≤ x) (h2 : x < 9223372036854775808) :
    wrap64 x = x := by
  unfold wrap64
  omega

theorem fieldsScan_append_word (t rest : List Char) (ht : ∀ c ∈ t, Unicode.isSpace c = false) :
    ∀ cur, fieldsScan cur (t ++ rest) = fieldsScan (cur ++ t) rest := by
  induction t with
  | nil => intro cur; simp
  | cons c cs ih =>
    intro cur
    have hc : Unicode.isSpace c = false := ht c (List.mem_cons_self _ _)
    have hcs : ∀ d ∈ cs, Unicode.isSpace d = false := fun d hd => ht d (List.mem_cons_of_mem _ hd)
    rw [List.cons_append, fieldsScan]
    simp only [hc, Bool.false_eq_true, if_false]
    rw [ih hcs]
    simp

theorem fieldsScan_words (s : List Char) :
    ∀ cur, (∀ c ∈ cur, Unicode.isSpace c = false) →
      ∀ t ∈ fieldsScan cur s, t ≠ [] ∧ ∀ c ∈ t, Unicode.isSpace c = false := by
  induction s with
  | nil =>
    intro cur hcur t ht
    unfold fieldsScan at ht
    by_cases h : cur = []
    · simp [h] at ht
    · simp only [h, if_false, List.mem_singleton] at ht
      subst ht
      exact ⟨h, hcur⟩
  | cons c cs ih =>
    intro cur hcur t ht
    unfold fieldsScan at ht
    by_cases hc : Unicode.isSpace c = true
    · simp only [hc, if_true] at ht
      by_cases h : cur = []
      · simp only [h, if_true] at ht
        exact ih [] (by simp) t ht
      · simp only [h, if_false, List.mem_cons] at ht
        rcases ht with ht | ht
        · subst ht
          exact ⟨h, hcur⟩
        · exact ih [] (by simp) t ht
    · simp only [hc, if_false] at ht
      refine ih (cur ++ [c]) ?_ t ht
      intro d hd
      rcases List.mem_append.mp hd with hd | hd
      · exact hcur d hd
      · rw [List.mem_singleton.mp hd]
        simpa using hc

theorem fields_isWord (text : String) : ∀ t ∈ fields text, IsWord t := by
  intro t ht
  unfold fields at ht
  obtain ⟨l, hl, rfl⟩ := List.mem_map.mp ht
  exact fieldsScan_words text.data [] (by simp) l hl

theorem fieldsScan_join (ts : List String) (h : ∀ t ∈ ts, IsWord t) :
    fieldsScan [] (join ts " ").data = ts.map String.data := by
  induction ts with
  | nil => rfl
  | cons e es ih =>
    have he : IsWord e := h e (List.mem_cons_self _ _)
    have hes : ∀ t ∈ es, IsWord t := fun t ht => h t (List.mem_cons_of_mem _ ht)
    cases es with
    | nil =>
      have := fieldsScan_append_word e.data [] he.2 []
      simp only [List.append_nil, List.nil_append] at this
      simp only [join, List.map]
      rw [this, fieldsScan]
      simp [he.1]
    | cons e2 es2 =>
      have ih2 := ih hes
      simp only [join, String.data_append]
      rw [List.append_assoc, fieldsScan_append_word e.data _ he.2 []]
      rw [List.nil_append, List.singleton_append, fieldsScan]
      have hs : Unicode.isSpace ' ' = true := by decide
      simp only [hs, if_true, he.1, if_false]
      rw [ih2]
      simp

theorem fields_join (ts : List String) (h : ∀ t ∈ ts, IsWord t) :
    fields (join ts " ") = ts := by
  unfold fields
  rw [fieldsScan_join ts h, List.map_map]
  have : (String.mk ∘ String.data) = id := by
    funext s
    rfl
  rw [this, List.map_id]

theorem drop_take_glue {β : Type} (L : List β) (O W : Nat) (h : O ≤ W) :
    (L.take W).drop O ++ L.drop W = L.drop O := by
  rw [List.drop_take]
  have e : L.drop W = (L.drop O).drop (W - O) := by
    rw [List.drop_drop]
    congr 1
    omega
  rw [e, List.take_append_drop]

theorem sliceExpr_nat {β : Type} (s : List β) (p e : Nat) (h1 : p ≤ e) (h2 : e ≤ s.length) :
    sliceExpr s (p : Int) (e : Int) = some ((s.drop p).take (e - p)) := by
  unfold sliceExpr
  have hc : (0 : Int) ≤ (p : Int) ∧ (p : Int) ≤ (e : Int) ∧ (e : Int) ≤ (s.length : Int) := by
    omega
  rw [if_pos hc]
  simp

theorem window_eq {β : Type} (s : List β) (p W : Nat) (hp : p < s.length) :
    sliceExpr s (p : Int)
        (if ((p : Int) + (W : Int)) > (s.length : Int) then (s.length : Int)
          else (p : Int) + (W : Int)) =
      some ((s.drop p).take W) := by
  by_cases h : ((p : Int) + (W : Int)) > (s.length : Int)
  · rw [if_pos h, sliceExpr_nat s p s.length (le_of_lt hp) le_rfl]
    congr 1
    rw [List.take_of_length_le, List.take_of_length_le]
    · simp only [List.length_drop]; omega
    · simp only [List.length_drop]; omega
  · rw [if_neg h]
    have e : (p : Int) + (W : Int) = ((p + W : Nat) : Int) := by push_cast; rfl
    rw [e, sliceExpr_nat s p (p + W) (by omega) (by omega)]
    congr 2
    omega

theorem splitLoop_step (tokens : List String) (W O : Nat) (hO : O < W)
    (hb : (tokens.length : Int) + (W : Int) < 9223372036854775808) (fuel p : Nat)
    (chunks : List String) (hlt : p < tokens.length) :
    splitLoop tokens (W : Int) (O : Int) (fuel + 1) (p : Int) chunks =
      splitLoop tokens (W : Int) (O : Int) fuel ((p + (W - O) : Nat) : Int)
        (chunks ++ [Strings.join ((tokens.drop p).take W) " "]) := by
  have hlt2 : (p : Int) < (tokens.length : Int) := by omega
  have hend : wrap64 ((p : Int) + (W : Int)) = (p : Int) + (W : Int) :=
    wrap64_eq_self _ (by omega) (by omega)
  have hstep : wrap64 ((p : Int) + wrap64 ((W : Int) - (O : Int))) =
      ((p + (W - O) : Nat) : Int) := by
    rw [wrap64_eq_self ((W : Int) - (O : Int)) (by omega) (by omega),
      wrap64_eq_self _ (by omega) (by omega)]
    omega
  rw [splitLoop, if_pos hlt2]
  simp only [hend]
  rw [window_eq tokens p W hlt]
  simp only [hstep]

theorem splitLoop_done (tokens : List String) (splitSize overlapSize : Int) (fuel : Nat)
    (i : Int) (hi : (tokens.length : Int) ≤ i) (chunks : List String) :
    splitLoop tokens splitSize overlapSize fuel i chunks = .value chunks := by
  have : ¬ (i < (tokens.length : Int)) := by omega
  cases fuel with
  | zero => rw [splitLoop, if_neg this]
  | succ f => rw [splitLoop, if_neg this]

theorem splitLoop_later (tokens : List String) (hw : ∀ t ∈ tokens, IsWord t) (W O : Nat)
    (hO : O < W) (hb : (tokens.length : Int) + (W : Int) < 9223372036854775808) :
    ∀ (fuel p : Nat) (chunks : List String), tokens.length ≤ p + fuel →
      ∃ cs, splitLoop tokens (W : Int) (O : Int) fuel (p : Int) chunks = .value (chunks ++ cs) ∧
        laterTokens O cs = tokens.drop (p + O) := by
  intro fuel
  induction fuel with
  | zero =>
    intro p chunks hp
    refine ⟨[], ?_, ?_⟩
    · rw [splitLoop_done tokens _ _ _ _ (by omega), List.append_nil]
    · rw [List.drop_eq_nil_of_le (by omega)]
      rfl
  | succ fuel ih =>
    intro p chunks hp
    by_cases hlt : p < tokens.length
    · obtain ⟨cs, hcs, hlater⟩ := ih (p + (W - O))
        (chunks ++ [Strings.join ((tokens.drop p).take W) " "]) (by omega)
      refine ⟨Strings.join ((tokens.drop p).take W) " " :: cs, ?_, ?_⟩
      · rw [splitLoop_step tokens W O hO hb fuel p chunks hlt, hcs]
        simp
      · have hwin : ∀ t ∈ (tokens.drop p).take W, IsWord t :=
          fun t ht => hw t (List.mem_of_mem_drop (List.mem_of_mem_take ht))
        simp only [laterTokens, fields_join _ hwin, hlater]
        have e1 : tokens.drop (p + (W - O) + O) = (tokens.drop p).drop W := by
          rw [List.drop_drop, show p + (W - O) + O = p + W by omega]
        have e2 : tokens.drop (p + O) = (tokens.drop p).drop O := by
          rw [List.drop_drop]
        rw [e1, e2]
        exact drop_take_glue _ O W (le_of_lt hO)
    · refine ⟨[], ?_, ?_⟩
      · rw [splitLoop_done tokens _ _ _ _ (by omega), List.append_nil]
      · rw [List.drop_eq_nil_of_le (by omega)]
        rfl

theorem splitLoop_reassembles (tokens : List String)
    (hw : ∀ t ∈ tokens, IsWord t) (W O : Nat) (hO : O < W)
    (hb : (tokens.length : Int) + (W : Int) < 9223372036854775808) (fuel : Nat)
    (hfuel : tokens.length ≤ fuel) :
    ∃ chunks, splitLoop tokens (W : Int) (O : Int) fuel 0 [] = .value chunks ∧
      reassemble O chunks = tokens := by
  by_cases hn : tokens.length = 0
  · have ht : tokens = [] := List.length_eq_zero.mp hn
    subst ht
    exact ⟨[], splitLoop_done _ _ _ _ 0 (by simp) [], rfl⟩
  · obtain ⟨f, rfl⟩ : ∃ f, fuel = f + 1 := ⟨fuel - 1, by omega⟩
    obtain ⟨cs, hcs, hlater⟩ := splitLoop_later tokens hw W O hO hb f (0 + (W - O))
      ([] ++ [Strings.join ((tokens.drop 0).take W) " "]) (by omega)
    refine ⟨Strings.join ((tokens.drop 0).take W) " " :: cs, ?_, ?_⟩
    · have hstep := splitLoop_step tokens W O hO hb f 0 [] (by omega)
      rw [Nat.cast_zero] at hstep
      rw [hstep, hcs]
      simp
    · have hwin2 : ∀ t ∈ (tokens.drop 0).take W, IsWord t :=
        fun t ht => hw t (List.mem_of_mem_drop (List.mem_of_mem_take ht))
      simp only [reassemble, fields_join _ hwin2, hlater]
      rw [show 0 + (W - O) + O = W by omega]
      simp

theorem sliceExpr_none {β : Type} (s : List β) (lo hi : Int) (h : lo < 0 ∨ hi < lo) :
    sliceExpr s lo hi = none := by
  unfold sliceExpr
  rw [if_neg]
  omega

theorem sliceExpr_some {β : Type} (s : List β) (lo hi : Int) (h1 : 0 ≤ lo) (h2 : lo ≤ hi)
    (h3 : hi ≤ (s.length : Int)) :
    sliceExpr s lo hi = some ((s.drop lo.toNat).take (hi.toNat - lo.toNat)) := by
  unfold sliceExpr
  rw [if_pos ⟨h1, h2, h3⟩]

/-- With `overlapSize = splitSize` the first chunker never leaves its loop. -/
theorem splitLoop_zero_step (tokens : List String) (hne : tokens ≠ []) (w : Int) (hpos : 0 ≤ w)
    (hmax : w < 9223372036854775808) :
    ∀ (fuel : Nat) (chunks : List String),
      ChainingAugmentation.splitLoop tokens w w fuel 0 chunks = .timeout := by
  have hn : (0 : Int) < (tokens.length : Int) := by
    have := List.length_pos.mpr hne
    omega
  intro fuel
  induction fuel with
  | zero =>
    intro chunks
    rw [ChainingAugmentation.splitLoop, if_pos hn]
  | succ f ih =>
    intro chunks
    have hend : wrap64 (0 + w) = w := by
      rw [wrap64_eq_self _ (by omega) (by omega)]
      omega
    have hstep : wrap64 (0 + wrap64 (w - w)) = 0 := by
      rw [wrap64_eq_self (w - w) (by omega) (by omega), wrap64_eq_self _ (by omega) (by omega)]
      omega
    rw [ChainingAugmentation.splitLoop, if_pos hn]
    simp only [hend, hstep]
    by_cases hc : w > (tokens.length : Int)
    · rw [if_pos hc, sliceExpr_some tokens 0 _ (le_refl _) (by omega) (le_refl _)]
      exact ih _
    · rw [if_neg hc, sliceExpr_some tokens 0 _ (le_refl _) (by omega) (by omega)]
      exact ih _

/-- With `overlapSize > splitSize ≥ 0` the first chunker panics in its second iteration. -/
theorem splitLoop_negative_step (tokens : List String) (hne : tokens ≠ []) (w o : Int)
    (hpos : 0 ≤ w) (hlt : w < o) (hmax : o < 9223372036854775808) (fuel : Nat)
    (chunks : List String) :
    ChainingAugmentation.splitLoop tokens w o (fuel + 2) 0 chunks =
      .panicked .sliceBoundsOutOfRange := by
  have hn : (0 : Int) < (tokens.length : Int) := by
    have := List.length_pos.mpr hne
    omega
  have hend : wrap64 (0 + w) = w := by
    rw [wrap64_eq_self _ (by omega) (by omega)]
    omega
  have hstep : wrap64 (0 + wrap64 (w - o)) = w - o := by
    rw [wrap64_eq_self (w - o) (by omega) (by omega), wrap64_eq_self _ (by omega) (by omega)]
    omega
  have hsecond : ∀ cs, ChainingAugmentation.splitLoop tokens w o (fuel + 1) (w - o) cs =
      .panicked .sliceBoundsOutOfRange := by
    intro cs
    rw [ChainingAugmentation.splitLoop, if_pos (by omega)]
    simp only []
    rw [sliceExpr_none tokens _ _ (Or.inl (by omega))]
  rw [ChainingAugmentation.splitLoop, if_pos hn]
  simp only [hend, hstep]
  by_cases hc : w > (tokens.length : Int)
  · rw [if_pos hc, sliceExpr_some tokens 0 _ (le_refl _) (by omega) (le_refl _)]
    exact hsecond _
  · rw [if_neg hc, sliceExpr_some tokens 0 _ (le_refl _) (by omega) (by omega)]
    exact hsecond _

theorem splitScan_ne_nil (sep : Char) (s : List Char) : ∀ cur, splitScan sep cur s ≠ [] := by
  induction s with
  | nil => intro cur; simp [splitScan]
  | cons c cs ih =>
    intro cur
    unfold splitScan
    by_cases h : c = sep
    · simp [h]
    · simp only [h, if_false]
      exact ih _

theorem split_ne_nil (text : String) (sep : Char) : Strings.split text sep ≠ [] := by
  unfold Strings.split
  intro h
  exact splitScan_ne_nil sep text.data [] (List.map_eq_nil_iff.mp h)

/-- With `overlapSize = splitSize` the `-05`/`-06` chunker never leaves its loop. -/
theorem splitLoop05_zero_step (tokens : List String) (hne : tokens ≠ []) (w : Int)
    (hpos : 0 ≤ w) (hmax : w < 9223372036854775808) :
    ∀ (fuel : Nat) (chunks : List String),
      ChainingAugmentation05.splitLoop tokens w w fuel 0 chunks = .timeout := by
  have hn : (0 : Int) < (tokens.length : Int) := by
    have := List.length_pos.mpr hne
    omega
  intro fuel
  induction fuel with
  | zero =>
    intro chunks
    rw [ChainingAugmentation05.splitLoop, if_pos hn]
  | succ f ih =>
    intro chunks
    have hend : wrap64 (wrap64 (0 + w) - w) = 0 := by
      rw [wrap64_eq_self (0 + w) (by omega) (by omega), wrap64_eq_self _ (by omega) (by omega)]
      omega
    have hstep : wrap64 (0 + wrap64 (w - w)) = 0 := by
      rw [wrap64_eq_self (w - w) (by omega) (by omega), wrap64_eq_self _ (by omega) (by omega)]
      omega
    rw [ChainingAugmentation05.splitLoop, if_pos hn]
    simp only [hend, hstep]
    rw [if_neg (by omega), sliceExpr_some tokens 0 0 (le_refl _) (le_refl _) (by omega)]
    exact ih _

/-- With `overlapSize > splitSize ≥ 0` the `-05`/`-06` chunker panics in its first
iteration. -/
theorem splitLoop05_negative_step (tokens : List String) (hne : tokens ≠ []) (w o : Int)
    (hpos : 0 ≤ w) (hlt : w < o) (hmax : o < 9223372036854775808) (fuel : Nat)
    (chunks : List String) :
    ChainingAugmentation05.splitLoop tokens w o (fuel + 1) 0 chunks =
      .panicked .sliceBoundsOutOfRange := by
  have hn : (0 : Int) < (tokens.length : Int) := by
    have := List.length_pos.mpr hne
    omega
  have hend : wrap64 (wrap64 (0 + w) - o) = w - o := by
    rw [wrap64_eq_self (0 + w) (by omega) (by omega), wrap64_eq_self _ (by omega) (by omega)]
    omega
  rw [ChainingAugmentation05.splitLoop, if_pos hn]
  simp only [hend]
  rw [if_neg (by omega), sliceExpr_none tokens _ _ (Or.inr (by omega))]

end ChainingAugmentation

/-! ## Conversation history -/

namespace ChainingAugmentation06

theorem heap_get_set_self (h : Heap) (p : Nat) (a : List ChatInputMessage) (hp : p < h.length) :
    ((h.set p a)[p]?).getD [] = a := by
  rw [List.getElem?_set_self hp]
  rfl

theorem take_set_of_le {β : Type} (l : List β) (n i : Nat) (x : β) (h : n ≤ i) :
    (l.set i x).take n = l.take n := by
  induction l generalizing n i with
  | nil => simp
  | cons a l ih =>
    cases i with
    | zero =>
      have : n = 0 := by omega
      subst this
      simp
    | succ i =>
      cases n with
      | zero => simp
      | succ n =>
        simp only [List.set_cons_succ, List.take_succ_cons]
        rw [ih n i (by omega)]

theorem take_succ_set {β : Type} (l : List β) (n : Nat) (x : β) (h : n < l.length) :
    (l.set n x).take (n + 1) = l.take n ++ [x] := by
  induction l generalizing n with
  | nil => simp at h
  | cons a l ih =>
    cases n with
    | zero => simp
    | succ n =>
      simp only [List.set_cons_succ, List.take_succ_cons, List.cons_append]
      rw [ih n (by simpa using h)]

theorem take_set_last {β : Type} (l : List β) (n : Nat) (x : β) (h0 : 0 < n) (h : n ≤ l.length) :
    (l.set (n - 1) x).take n = (l.take n).dropLast ++ [x] := by
  obtain ⟨m, rfl⟩ : ∃ m, n = m + 1 := ⟨n - 1, by omega⟩
  rw [Nat.add_sub_cancel, take_succ_set l m x (by omega), List.dropLast_eq_take,
    List.length_take, List.take_take]
  congr 2
  omega

/-- In-place or copying, `append` shows the old elements followed by the new one. -/
theorem append_view (growCap : Nat → Nat → Nat) (h : Heap) (s : Slice) (x : ChatInputMessage)
    (hwf : s.WF h) :
    (append growCap h s x).2.view (append growCap h s x).1 = s.view h ++ [x] ∧
      (append growCap h s x).2.WF (append growCap h s x).1 := by
  obtain ⟨harr, hlen, hcap⟩ := hwf
  unfold append
  by_cases hc : s.len < s.cap
  · rw [if_pos hc]
    refine ⟨?_, ?_, ?_, ?_⟩
    · simp only [Slice.view]
      rw [heap_get_set_self h _ _ harr, take_succ_set _ _ _ (by omega)]
    · simpa using harr
    · show s.len + 1 ≤ s.cap
      omega
    · show (((h.set s.array _)[s.array]?).getD []).length = s.cap
      rw [heap_get_set_self h _ _ harr, List.length_set, hcap]
  · rw [if_neg hc]
    have hvl : (s.view h).length = s.len := by
      simp only [Slice.view, List.length_take]
      omega
    refine ⟨?_, ?_, ?_, ?_⟩
    · simp only [Slice.view]
      rw [List.getElem?_append_right (le_refl _)]
      simp only [Nat.sub_self, List.getElem?_cons_zero, Option.getD_some]
      have hl : (((h[s.array]?).getD []).take s.len ++ [x]).length = s.len + 1 := by
        simp only [List.length_append, List.length_take, List.length_singleton]
        omega
      have := @List.take_left' _ (((h[s.array]?).getD []).take s.len ++ [x])
        (List.replicate (max (growCap s.cap (s.len + 1)) (s.len + 1) - (s.len + 1))
          (⟨.unset, ""⟩ : ChatInputMessage)) (s.len + 1) hl
      simpa [List.append_assoc] using this
    · simp
    · show s.len + 1 ≤ max (growCap s.cap (s.len + 1)) (s.len + 1)
      exact le_max_right _ _
    · show (((h ++ [_])[h.length]?).getD []).length = _
      rw [List.getElem?_append_right (le_refl _)]
      simp only [Nat.sub_self, List.getElem?_cons_zero, Option.getD_some, List.length_append,
        List.length_replicate, List.length_singleton, hvl]
      have := le_max_right (growCap s.cap (s.len + 1)) (s.len + 1)
      omega

/-- The slice that was appended to still shows its old elements afterwards. -/
theorem append_frame (growCap : Nat → Nat → Nat) (h : Heap) (s : Slice) (x : ChatInputMessage)
    (hwf : s.WF h) :
    s.view (append growCap h s x).1 = s.view h ∧ s.WF (append growCap h s x).1 := by
  obtain ⟨harr, hlen, hcap⟩ := hwf
  unfold append
  by_cases hc : s.len < s.cap
  · rw [if_pos hc]
    refine ⟨?_, ?_, hlen, ?_⟩
    · simp only [Slice.view]
      rw [heap_get_set_self h _ _ harr, take_set_of_le _ _ _ _ (le_refl _)]
    · simpa using harr
    · show (((h.set s.array _)[s.array]?).getD []).length = s.cap
      rw [heap_get_set_self h _ _ harr, List.length_set, hcap]
  · rw [if_neg hc]
    refine ⟨?_, ?_, hlen, ?_⟩
    · simp only [Slice.view]
      rw [List.getElem?_append_left harr]
    · simp only [List.length_append, List.length_singleton]
      omega
    · show (((h ++ [_])[s.array]?).getD []).length = s.cap
      rw [List.getElem?_append_left harr, hcap]

/-- The assignment `s[len(s)-1] = x` replaces the last element shown by `s`. -/
theorem setIndex_last (h : Heap) (s : Slice) (x : ChatInputMessage) (hwf : s.WF h)
    (hpos : 0 < s.len) :
    ∃ h1, setIndex h s (s.len - 1) x = some h1 ∧
      s.view h1 = (s.view h).dropLast ++ [x] ∧ s.WF h1 := by
  obtain ⟨harr, hlen, hcap⟩ := hwf
  refine ⟨h.set s.array (((h[s.array]?).getD []).set (s.len - 1) x), ?_, ?_, ?_, hlen, ?_⟩
  · unfold setIndex
    rw [if_pos (by omega)]
  · simp only [Slice.view]
    rw [heap_get_set_self h _ _ harr, take_set_last _ _ _ hpos (by omega)]
  · simpa using harr
  · rw [heap_get_set_self h _ _ harr, List.length_set, hcap]

theorem answerTurn_short_history {σ : Type} (growCap : Nat → Nat → Nat)
    (chatSSE : List ChatInputMessage → Except GoError (List (List String)))
    (factuality : String → String → Except GoError (List σ))
    (h : Heap) (messages : Slice) (input chunk : String) (stream : List (List String))
    (score : σ) (checks : List σ) (hwf : messages.WF h) (hlen : ¬ 1 < messages.len)
    (hchat : chatSSE (messages.view h ++ [⟨.user, qAPromptTemplate chunk input⟩]) = .ok stream)
    (hfact : factuality chunk (fullMessage stream) = .ok (score :: checks)) :
    ∃ h2 m2, answerTurn growCap chatSSE factuality h messages input chunk = .value (.ok (h2, m2)) ∧
      m2.view h2 = messages.view h ++ [⟨.user, input⟩, ⟨.assistant, fullMessage stream⟩] ∧
      m2.WF h2 := by
  have hv := append_view growCap h messages ⟨.user, qAPromptTemplate chunk input⟩ hwf
  have hf := append_frame growCap h messages ⟨.user, qAPromptTemplate chunk input⟩ hwf
  have hrun : run growCap chatSSE factuality h input chunk messages =
      ((append growCap h messages ⟨.user, qAPromptTemplate chunk input⟩).1,
        .value (.ok (score, fullMessage stream))) := by
    unfold run
    simp only [gt_iff_lt, hlen, if_false, hv.1, hchat, hfact]
  have ha1 := append_view growCap (append growCap h messages ⟨.user, qAPromptTemplate chunk input⟩).1
    messages ⟨.user, input⟩ hf.2
  have ha2 := append_view growCap _ _ ⟨.assistant, fullMessage stream⟩ ha1.2
  refine ⟨_, _, ?_, ?_, ha2.2⟩
  · unfold answerTurn
    rw [hrun]
  · rw [ha2.1, ha1.1, hf.1]
    simp

theorem answerTurn_long_history {σ : Type} (growCap : Nat → Nat → Nat)
    (chatSSE : List ChatInputMessage → Except GoError (List (List String)))
    (factuality : String → String → Except GoError (List σ))
    (h : Heap) (messages : Slice) (input chunk : String) (stream : List (List String))
    (score : σ) (checks : List σ) (hwf : messages.WF h) (hlen : 1 < messages.len)
    (hchat : chatSSE ((messages.view h).dropLast ++ [⟨.user, qAPromptTemplate chunk input⟩]) =
      .ok stream)
    (hfact : factuality chunk (fullMessage stream) = .ok (score :: checks)) :
    ∃ h2 m2, answerTurn growCap chatSSE factuality h messages input chunk = .value (.ok (h2, m2)) ∧
      m2.view h2 = (messages.view h).dropLast ++
        [⟨.user, qAPromptTemplate chunk input⟩, ⟨.user, input⟩,
          ⟨.assistant, fullMessage stream⟩] ∧
      m2.WF h2 := by
  obtain ⟨h1, hset, hview, hwf1⟩ :=
    setIndex_last h messages ⟨.user, qAPromptTemplate chunk input⟩ hwf (by omega)
  have hrun : run growCap chatSSE factuality h input chunk messages =
      (h1, .value (.ok (score, fullMessage stream))) := by
    unfold run
    simp only [gt_iff_lt, hlen, if_true, hset, Option.map_some', hview, hchat, hfact]
  have ha1 := append_view growCap h1 messages ⟨.user, input⟩ hwf1
  have ha2 := append_view growCap _ _ ⟨.assistant, fullMessage stream⟩ ha1.2
  refine ⟨_, _, ?_, ?_, ha2.2⟩
  · unfold answerTurn
    rw [hrun]
  · rw [ha2.1, ha1.1, hview]
    simp

end ChainingAugmentation06

/-! ## Ingestion and the exact-match query -/

namespace ChainingAugmentation05

theorem ingestLoop_ids {α : Type} (embed : String → Except GoError (VectorizedChunk α)) :
    ∀ (chunks : List String) (acc result : VectorizedChunks α),
      (∀ (j : Nat) (c : VectorizedChunk α), acc[j]? = some c → c.Id = (j : Int)) →
      ingestLoop embed chunks acc.length acc = .value (.ok result) →
      ∀ (j : Nat) (c : VectorizedChunk α), result[j]? = some c → c.Id = (j : Int) := by
  intro chunks
  induction chunks with
  | nil =>
    intro acc result hacc hrun
    rw [ingestLoop] at hrun
    injection hrun with hrun
    injection hrun with hrun
    subst hrun
    exact hacc
  | cons chunk rest ih =>
    intro acc result hacc hrun
    rw [ingestLoop] at hrun
    cases hemb : embed chunk with
    | error err =>
      rw [hemb] at hrun
      injection hrun with hrun
      injection hrun
    | ok vc =>
      rw [hemb] at hrun
      have hget : (acc ++ [vc])[acc.length]? = some vc := by
        rw [List.getElem?_append_right (le_refl _)]
        simp
      simp only [hget] at hrun
      have hlen : ((acc ++ [vc]).set acc.length
          { vc with Id := (acc.length : Int), Metadata := chunk }).length = acc.length + 1 := by
        simp
      rw [← hlen] at hrun
      refine ih _ result ?_ hrun
      intro j c hj
      rw [List.getElem?_set] at hj
      by_cases hj2 : acc.length = j
      · rw [if_pos hj2] at hj
        have hl : acc.length < (acc ++ [vc]).length := by simp
        rw [if_pos hl] at hj
        injection hj with hj
        rw [← hj, ← hj2]
      · rw [if_neg hj2] at hj
        by_cases hj3 : j < acc.length
        · rw [List.getElem?_append_left hj3] at hj
          exact hacc j c hj
        · have : (acc ++ [vc]).length ≤ j := by
            simp only [List.length_append, List.length_singleton]
            omega
          rw [List.getElem?_eq_none this] at hj
          exact absurd hj (by simp)

/-- Ingestion numbers the chunk records by position: the record at index `j` has `Id = j`. -/
theorem ingest_ids {α : Type} (embed : String → Except GoError (VectorizedChunk α))
    (chunks : List String) (result : VectorizedChunks α)
    (hrun : ingest embed chunks = .value (.ok result)) :
    ∀ (j : Nat) (c : VectorizedChunk α), result[j]? = some c → c.Id = (j : Int) :=
  ingestLoop_ids embed chunks [] result (fun j c h => by simp at h) hrun

/-- C8 (amended): for every corpus whose records carry their position as `Id` (as ingestion
builds it) and whose vectors are all non-zero, with a chunk `c0` of id 0 and a chunk `c1` of
id 1, and a query whose vector is exactly the vector of `c1`: `search` succeeds and returns the
text of the lowest-index chunk with score 1, that is the text of `c1` unless chunk 0 also
scores 1 against the query, in which case it is the text of `c0`. -/
theorem search_exact_match_id_one (chunks : VectorizedChunks ℝ) (query c0 c1 : VectorizedChunk ℝ)
    (hid : ∀ (j : Nat) (c : VectorizedChunk ℝ), chunks[j]? = some c → c.Id = (j : Int))
    (hc0 : c0 ∈ chunks) (hid0 : c0.Id = 0) (hc1 : c1 ∈ chunks) (hid1 : c1.Id = 1)
    (hnz : ∀ c ∈ chunks, ∃ x ∈ c.Vector, x ≠ 0) (hq : query.Vector = c1.Vector) :
    (cosineSimilarity Real.sqrt c0.Vector query.Vector ≠ .value (.ok 1) →
        search Real.sqrt chunks query = .value (.ok c1.Chunk)) ∧
      (cosineSimilarity Real.sqrt c0.Vector query.Vector = .value (.ok 1) →
        search Real.sqrt chunks query = .value (.ok c0.Chunk)) := by
  obtain ⟨i0, h0⟩ := List.getElem?_of_mem hc0
  obtain ⟨i1, h1⟩ := List.getElem?_of_mem hc1
  have e0 : i0 = 0 := by
    have := hid i0 c0 h0
    omega
  have e1 : i1 = 1 := by
    have := hid i1 c1 h1
    omega
  subst e0 e1
  match chunks, h0, h1, hnz with
  | a :: b :: rest, h0, h1, hnz =>
    simp only [List.getElem?_cons_zero, List.getElem?_cons_succ, Option.some.injEq] at h0 h1
    subst h0 h1
    have := search_exact_match_aux a b rest query hnz hq
    exact ⟨this.2, this.1⟩
  | [_], _, h1, _ => simp at h1
  | [], h0, _, _ => simp at h0

theorem parallelCorpus_first_score :
    cosineSimilarity Real.sqrt [2, 0] [1, 0] = .value (.ok (1 : ℝ)) := by
  have h4 : Real.sqrt 4 = 2 := by
    rw [show (4 : ℝ) = 2 ^ 2 by norm_num, Real.sqrt_sq (by norm_num)]
  have e : ((2 : ℝ) ^ 2) = 4 := by norm_num
  rw [cosineSimilarity_eq]
  simp [normSq, dotUpTo, Finset.sum_range_succ, e, h4]

/-- Counterexample to C8 as stated: in `parallelCorpus` both vectors are non-zero and the query
vector `[1,0]` is exactly the vector of the chunk with id 1, yet `search` returns the text of
chunk 0 (`"zero"`), whose vector `[2,0]` also scores 1, and not the text of chunk 1. -/
theorem search_exact_match_counterexample :
    search Real.sqrt parallelCorpus exampleQuery = .value (.ok "zero") ∧
      search Real.sqrt parallelCorpus exampleQuery ≠ .value (.ok "one") := by
  have h : search Real.sqrt parallelCorpus exampleQuery = .value (.ok "zero") :=
    (search_exact_match_aux ⟨0, "zero", [2, 0], "zero"⟩ ⟨1, "one", [1, 0], "one"⟩ []
      exampleQuery
      (by
        intro c hc
        simp only [List.mem_cons, List.mem_singleton, List.not_mem_nil, or_false] at hc
        rcases hc with rfl | rfl
        · exact ⟨2, by simp, by norm_num⟩
        · exact ⟨1, by simp, by norm_num⟩)
      rfl).1 parallelCorpus_first_score
  refine ⟨h, ?_⟩
  rw [h]
  intro hne
  injection hne with hne
  injection hne with hne
  exact absurd hne (by decide)

theorem exampleCorpus_ids (j : Nat) (c : VectorizedChunk ℝ)
    (h : exampleCorpus[j]? = some c) : c.Id = (j : Int) := by
  match j, h with
  | 0, h =>
    simp only [exampleCorpus, List.getElem?_cons_zero, Option.some.injEq] at h
    rw [← h]
    rfl
  | 1, h =>
    simp only [exampleCorpus, List.getElem?_cons_succ, List.getElem?_cons_zero,
      Option.some.injEq] at h
    rw [← h]
    rfl
  | 2, h =>
    simp only [exampleCorpus, List.getElem?_cons_succ, List.getElem?_cons_zero,
      Option.some.injEq] at h
    rw [← h]
    rfl
  | n + 3, h => simp [exampleCorpus] at h

theorem exampleCorpus_nonzero : ∀ c ∈ exampleCorpus, ∃ x ∈ c.Vector, x ≠ 0 := by
  intro c hc
  simp only [exampleCorpus, List.mem_cons, List.mem_singleton, List.not_mem_nil, or_false] at hc
  rcases hc with rfl | rfl | rfl
  · exact ⟨1, by simp, by norm_num⟩
  · exact ⟨1, by simp, by norm_num⟩
  · exact ⟨0.9, by simp, by norm_num⟩

theorem exampleCorpus_first_vs_second :
    cosineSimilarity Real.sqrt [1, 0] [0, 1] ≠ .value (.ok (1 : ℝ)) := by
  rw [cosineSimilarity_eq]
  simp [normSq, dotUpTo, Finset.sum_range_succ]

/-- Witness for the amended C8: in `exampleCorpus` the query `[0,1]` equals the vector of the
chunk with id 1, chunk 0 scores 0 against it, and `search` returns `"second"`. -/
theorem search_exact_match_id_one_witness :
    search Real.sqrt exampleCorpus secondQuery = .value (.ok "second") :=
  (search_exact_match_id_one exampleCorpus secondQuery ⟨0, "first", [1, 0], "first"⟩
    ⟨1, "second", [0, 1], "second"⟩ exampleCorpus_ids (by simp [exampleCorpus]) rfl
    (by simp [exampleCorpus]) rfl exampleCorpus_nonzero rfl).1 exampleCorpus_first_vs_second

/-- Witness for C7: `cosineSimilarity([3,4], [3,4])` is 1. -/
theorem cosineSimilarity_self_is_one_witness :
    cosineSimilarity Real.sqrt [3, 4] [3, 4] = .value (.ok 1) :=
  cosineSimilarity_self_is_one [3, 4] ⟨3, by simp, by norm_num⟩

/-- Witness for C10: the score of `[1,2]` against `[3,-1]` exists and lies in `[-1, 1]`. -/
theorem cosineSimilarity_range_witness :
    ∃ s, cosineSimilarity Real.sqrt [1, 2] [3, -1] = .value (.ok s) ∧ -1 ≤ s ∧ s ≤ 1 :=
  cosineSimilarity_range [1, 2] [3, -1] rfl ⟨1, by simp, by norm_num⟩ ⟨3, by simp, by norm_num⟩

end ChainingAugmentation05

/-! ## The claims about the chunkers and the conversation history -/

namespace ChainingAugmentation

/-- C3 (amended): for `characterTextSplitter` of `chaining-augmentation/main.go`, for every text
`T` and every `windowSize > 0` and `0 ≤ overlap < windowSize` such that the number of tokens plus
`windowSize` stays below `2^63` (so that `i + splitSize` does not overflow a Go `int`), the
function returns (any iteration budget of at least the token count suffices), and taking all
tokens of the first chunk and, for each later chunk, its tokens after dropping its first
`overlap` tokens, concatenated in chunk order, yields exactly `strings.Fields(T)`. -/
theorem characterTextSplitter_reassembles_tokens (text : String) (splitSize overlapSize : Int)
    (fuel : Nat) (hpos : 0 < splitSize) (h0 : 0 ≤ overlapSize) (hlt : overlapSize < splitSize)
    (hb : ((Strings.fields text).length : Int) + splitSize < 9223372036854775808)
    (hfuel : (Strings.fields text).length ≤ fuel) :
    ∃ chunks, characterTextSplitter fuel text splitSize overlapSize = .value chunks ∧
      reassemble overlapSize.toNat chunks = Strings.fields text := by
  obtain ⟨W, rfl⟩ : ∃ W : Nat, splitSize = (W : Int) :=
    ⟨splitSize.toNat, (Int.toNat_of_nonneg (le_of_lt hpos)).symm⟩
  obtain ⟨O, rfl⟩ : ∃ O : Nat, overlapSize = (O : Int) :=
    ⟨overlapSize.toNat, (Int.toNat_of_nonneg h0).symm⟩
  rw [Int.toNat_ofNat]
  exact splitLoop_reassembles (Strings.fields text) (fields_isWord text) W O (by omega) hb fuel
    hfuel

/-- Witness for the amended C3: the text `" A B  C "` with `windowSize = 2`, `overlap = 1`. -/
theorem characterTextSplitter_reassembles_tokens_witness :
    ∃ chunks, characterTextSplitter 3 " A B  C " 2 1 = .value chunks ∧
      reassemble (1 : Int).toNat chunks = Strings.fields " A B  C " :=
  characterTextSplitter_reassembles_tokens " A B  C " 2 1 3 (by decide) (by decide) (by decide)
    (by decide) (by decide)

/-- Counterexample to C3 as stated: with `windowSize = 2^63 - 1` and `overlap = 2^63 - 2`
(so `windowSize > 0` and `0 ≤ overlap < windowSize`) and the text `"a b"`, the sum
`i + splitSize` overflows in the second iteration, `end` becomes negative and `tokens[i:end]`
panics: no chunk sequence is returned. -/
theorem characterTextSplitter_overflow_counterexample :
    characterTextSplitter 2 "a b" 9223372036854775807 9223372036854775806 =
      .panicked .sliceBoundsOutOfRange := by
  decide

/-- C4 (amended): `characterTextSplitter` has no `InvalidConfiguration` outcome and does not
check its parameters. For `windowSize ≥ 0` and `overlap ≥ windowSize`: the first variant
returns the empty chunk sequence when the text has no token; otherwise it never leaves its loop
when `overlap = windowSize` and panics with slice bounds out of range in its second iteration
when `overlap > windowSize`. The `-05`/`-06` variant never leaves its loop when
`overlap = windowSize` and panics in its first iteration when `overlap > windowSize`. -/
theorem characterTextSplitter_invalid_overlap (text : String) (splitSize overlapSize : Int)
    (hpos : 0 ≤ splitSize) (hge : splitSize ≤ overlapSize)
    (hmax : overlapSize < 9223372036854775808) :
    (Strings.fields text = [] →
        ∀ fuel, characterTextSplitter fuel text splitSize overlapSize = .value []) ∧
      (Strings.fields text ≠ [] → overlapSize = splitSize →
        ∀ fuel, characterTextSplitter fuel text splitSize overlapSize = .timeout) ∧
      (Strings.fields text ≠ [] → splitSize < overlapSize →
        ∀ fuel, 2 ≤ fuel → characterTextSplitter fuel text splitSize overlapSize =
          .panicked .sliceBoundsOutOfRange) ∧
      (overlapSize = splitSize →
        ∀ fuel, ChainingAugmentation05.characterTextSplitter fuel text splitSize overlapSize =
          .timeout) ∧
      (splitSize < overlapSize →
        ∀ fuel, 1 ≤ fuel →
          ChainingAugmentation05.characterTextSplitter fuel text splitSize overlapSize =
            .panicked .sliceBoundsOutOfRange) := by
  refine ⟨?_, ?_, ?_, ?_, ?_⟩
  · intro hnil fuel
    unfold characterTextSplitter
    rw [hnil]
    exact splitLoop_done [] _ _ _ 0 (by simp) []
  · intro hne heq fuel
    subst heq
    exact splitLoop_zero_step _ hne _ hpos hmax fuel []
  · intro hne hlt fuel hfuel
    obtain ⟨f, rfl⟩ : ∃ f, fuel = f + 2 := ⟨fuel - 2, by omega⟩
    exact splitLoop_negative_step _ hne _ _ hpos hlt hmax f []
  · intro heq fuel
    subst heq
    exact splitLoop05_zero_step _ (split_ne_nil text ' ') _ hpos hmax fuel []
  · intro hlt fuel hfuel
    obtain ⟨f, rfl⟩ : ∃ f, fuel = f + 1 := ⟨fuel - 1, by omega⟩
    exact splitLoop05_negative_step _ (split_ne_nil text ' ') _ _ hpos hlt hmax f []

/-- Witness for the amended C4: the text `"A B"` with `windowSize = 1`, `overlap = 2` makes
both variants panic. -/
theorem characterTextSplitter_invalid_overlap_witness :
    characterTextSplitter 2 "A B" 1 2 = .panicked .sliceBoundsOutOfRange ∧
      ChainingAugmentation05.characterTextSplitter 1 "A B" 1 2 =
        .panicked .sliceBoundsOutOfRange :=
  ⟨(characterTextSplitter_invalid_overlap "A B" 1 2 (by decide) (by decide) (by decide)).2.2.1
      (by decide) (by decide) 2 (le_refl 2),
    (characterTextSplitter_invalid_overlap "A B" 1 2 (by decide) (by decide)
      (by decide)).2.2.2.2 (by decide) 1 (le_refl 1)⟩

/-- On `"A B C D E F"` with `windowSize = 3`, `overlap = 1` the chunker of
`chaining-augmentation/main.go` emits overlapping windows of three tokens. -/
theorem characterTextSplitter_overlapping_windows :
    characterTextSplitter 3 "A B C D E F" 3 1 = .value ["A B C", "C D E", "E F"] := by
  decide

/-- On the empty text the chunker of `chaining-augmentation/main.go` emits no chunk. -/
theorem characterTextSplitter_fields_empty_text :
    characterTextSplitter 0 "" 100 10 = .value [] := by
  decide

/-- Counterexample to C4 as stated: with `overlap ≥ windowSize` the first variant returns a
chunk sequence (the empty one) and no error for the empty text with `windowSize = overlap = 1`,
and it indexes out of range for the text `"A B"` with `windowSize = 1`, `overlap = 2`. -/
theorem characterTextSplitter_no_invalid_configuration :
    characterTextSplitter 1 "" 1 1 = .value [] ∧
      characterTextSplitter 2 "A B" 1 2 = .panicked .sliceBoundsOutOfRange := by
  decide

end ChainingAugmentation

namespace ChainingAugmentation05

/-- C2 (what the code does): on `"A B C D E F"` with `windowSize = 3`, `overlap = 1` the
chunker of `-05`/`-06` emits windows of `windowSize - overlap = 2` tokens that share no token,
`["A B", "C D", "E F"]`, and not `["A B C", "C D E", "E F"]`. -/
theorem characterTextSplitter_shrinks_window :
    characterTextSplitter 3 "A B C D E F" 3 1 = .value ["A B", "C D", "E F"] ∧
      ChainingAugmentation06.characterTextSplitter 3 "A B C D E F" 3 1 =
        .value ["A B", "C D", "E F"] := by
  decide

/-- C9 (what the code does): on the empty text with `windowSize = 100`, `overlap = 10` the
chunker of `-05`/`-06` returns the sequence holding one empty chunk, because
`strings.Split("", " ")` is `[""]`. -/
theorem characterTextSplitter_empty_text :
    characterTextSplitter 1 "" 100 10 = .value [""] ∧
      ChainingAugmentation06.characterTextSplitter 1 "" 100 10 = .value [""] := by
  decide

end ChainingAugmentation05

namespace ChainingAugmentation06

/-- C5 (what the code does): starting from the history `[system]` of `main`, after a first
successful turn the history is `[system, user q1, assistant a1]`, but after a second successful
turn it is `[system, user q1, user qAPromptTemplate(c2, q2), user q2, assistant a2]`: `run`
wrote the grounded prompt over the first answer through the shared backing array, and the
request of the second turn was sent without that answer. -/
theorem second_turn_overwrites_answer {σ : Type} (growCap : Nat → Nat → Nat)
    (chatSSE : List ChatInputMessage → Except GoError (List (List String)))
    (factuality : String → String → Except GoError (List σ))
    (q1 c1 q2 c2 : String) (stream1 stream2 : List (List String)) (score1 score2 : σ)
    (checks1 checks2 : List σ)
    (hchat1 : chatSSE [systemInstruction, ⟨.user, qAPromptTemplate c1 q1⟩] = .ok stream1)
    (hfact1 : factuality c1 (fullMessage stream1) = .ok (score1 :: checks1))
    (hchat2 : chatSSE [systemInstruction, ⟨.user, q1⟩, ⟨.user, qAPromptTemplate c2 q2⟩] =
      .ok stream2)
    (hfact2 : factuality c2 (fullMessage stream2) = .ok (score2 :: checks2)) :
    ∃ h1 m1 h2 m2,
      answerTurn growCap chatSSE factuality initialMessages.1 initialMessages.2 q1 c1 =
          .value (.ok (h1, m1)) ∧
        m1.view h1 = [systemInstruction, ⟨.user, q1⟩, ⟨.assistant, fullMessage stream1⟩] ∧
        answerTurn growCap chatSSE factuality h1 m1 q2 c2 = .value (.ok (h2, m2)) ∧
        m2.view h2 = [systemInstruction, ⟨.user, q1⟩, ⟨.user, qAPromptTemplate c2 q2⟩,
          ⟨.user, q2⟩, ⟨.assistant, fullMessage stream2⟩] := by
  have hwf0 : initialMessages.2.WF initialMessages.1 := by
    refine ⟨?_, ?_, ?_⟩ <;> simp [initialMessages]
  have hview0 : initialMessages.2.view initialMessages.1 = [systemInstruction] := by
    simp [initialMessages, Slice.view]
  obtain ⟨h1, m1, hturn1, hview1, hwf1⟩ :=
    answerTurn_short_history growCap chatSSE factuality initialMessages.1 initialMessages.2 q1 c1
      stream1 score1 checks1 hwf0 (by simp [initialMessages])
      (by rw [hview0]; exact hchat1) hfact1
  rw [hview0] at hview1
  have hlen1 : 1 < m1.len := by
    have := congrArg List.length hview1
    simp only [Slice.view, List.length_take, List.singleton_append, List.length_cons,
      List.length_nil] at this
    omega
  obtain ⟨h2, m2, hturn2, hview2, _⟩ :=
    answerTurn_long_history growCap chatSSE factuality h1 m1 q2 c2 stream2 score2 checks2 hwf1
      hlen1 (by rw [hview1]; exact hchat2) hfact2
  rw [hview1] at hview2
  exact ⟨h1, m1, h2, m2, hturn1, hview1, hturn2, hview2⟩

/-- Witness for C5: two turns with concrete services and the capacity rule `doubleCap`. -/
theorem second_turn_overwrites_answer_witness :
    ∃ h1 m1 h2 m2,
      answerTurn doubleCap exampleChat exampleFactuality initialMessages.1 initialMessages.2
          "q1" "c1" = .value (.ok (h1, m1)) ∧
        m1.view h1 = [systemInstruction, ⟨.user, "q1"⟩,
          ⟨.assistant, fullMessage [["Go"], [" is", " fun"]]⟩] ∧
        answerTurn doubleCap exampleChat exampleFactuality h1 m1 "q2" "c2" =
          .value (.ok (h2, m2)) ∧
        m2.view h2 = [systemInstruction, ⟨.user, "q1"⟩, ⟨.user, qAPromptTemplate "c2" "q2"⟩,
          ⟨.user, "q2"⟩, ⟨.assistant, fullMessage [["Go"], [" is", " fun"]]⟩] :=
  second_turn_overwrites_answer doubleCap exampleChat exampleFactuality "q1" "c1" "q2" "c2"
    [["Go"], [" is", " fun"]] [["Go"], [" is", " fun"]] 1 1 [] [] rfl rfl rfl rfl

end ChainingAugmentation06
